import Mathlib

/-!
Verification development for the extended-copy core of an OCI artifact
distribution library (oras-go v2 vintage with the legacy artifacts-spec).

The Go source is shallowly embedded:
* ocispec.Descriptor becomes the structure Descriptor (fields irrelevant to
  the verified claims, such as URLs and Platform, are omitted);
* the internal equivalence key descriptor.Descriptor becomes Key;
* fallible store calls return Except Err;
* a fetch followed by a JSON decode into a particular Go struct is modelled
  as a shape-specific oracle field of GraphSource (JSON wire parsing itself
  is outside the model: each oracle stands for one fetch-and-decode);
* compiled regular expressions (regexp.Regexp pointers, possibly nil) become
  Option (String → Bool) where the function stands for MatchString;
* Go map iteration order is unspecified, so ranging over a map is modelled
  as an arbitrary permutation of the map entries.
-/

namespace Oras

/-- Model of "github.com/opencontainers/go-digest".Digest (a string). -/
abbrev Digest := String

/-- Errors surfaced by store operations; the Go code passes error values
through unchanged, so a plain string model suffices. -/
abbrev Err := String

/-- Model of ocispec.Descriptor restricted to the fields the verified code
reads: MediaType, Digest, Size, Annotations, ArtifactType. Annotations is a
Go map[string]string that may be nil, modelled as an optional association
list (none models the nil map, some [] the empty non-nil map). -/
structure Descriptor where
  MediaType : String
  Digest : Digest
  Size : Int
  Annotations : Option (List (String × String)) := none
  ArtifactType : String := ""
deriving DecidableEq, Repr

/-- Modelled from the spec: internal/descriptor.Descriptor, the equivalence
key used for visited sets and root maps; the spec fixes it to the triple
(media_type, digest, size). The defining Go file is not part of the sources
here. -/
structure Key where
  MediaType : String
  Digest : Digest
  Size : Int
deriving DecidableEq, Repr

/-- Modelled from the spec: internal/descriptor.FromOCI, which projects a
descriptor to its (media_type, digest, size) equivalence key. -/
def FromOCI (d : Descriptor) : Key :=
  { MediaType := d.MediaType, Digest := d.Digest, Size := d.Size }

/-- Model of artifactspec.Descriptor (legacy artifact descriptor shape). -/
structure ArtifactDescriptor where
  MediaType : String
  Digest : Digest
  Size : Int
  Annotations : Option (List (String × String)) := none
  ArtifactType : String := ""
deriving DecidableEq, Repr

/-- Model of ocispec.Manifest restricted to the fields Successors reads. -/
structure ImageManifest where
  Config : Descriptor
  Layers : List Descriptor
deriving DecidableEq, Repr

/-- Model of artifactspec.Manifest (legacy artifact manifest). -/
structure ArtifactManifest where
  ArtifactType : String := ""
  Blobs : List ArtifactDescriptor := []
  Subject : Option ArtifactDescriptor := none
  Annotations : Option (List (String × String)) := none
deriving DecidableEq, Repr

/-- Model of ocispec.Artifact (modern OCI artifact manifest). -/
structure OCIArtifact where
  ArtifactType : String := ""
  Blobs : List Descriptor := []
  Subject : Option Descriptor := none
  Annotations : Option (List (String × String)) := none
deriving DecidableEq, Repr

def dockerMediaTypeManifest : String :=
  "application/vnd.docker.distribution.manifest.v2+json"

def dockerMediaTypeManifestList : String :=
  "application/vnd.docker.distribution.manifest.list.v2+json"

def ocispecMediaTypeImageManifest : String :=
  "application/vnd.oci.image.manifest.v1+json"

def ocispecMediaTypeImageIndex : String :=
  "application/vnd.oci.image.index.v1+json"

/-- Legacy artifact manifest media type (artifactspec.MediaTypeArtifactManifest). -/
def artifactspecMediaTypeArtifactManifest : String :=
  "application/vnd.cncf.oras.artifact.manifest.v1+json"

/-- Modern OCI artifact manifest media type (ocispec.MediaTypeArtifactManifest). -/
def ocispecMediaTypeArtifactManifest : String :=
  "application/vnd.oci.artifact.manifest.v1+json"

/-- Reserved annotation key ocispec.AnnotationArtifactCreated. -/
def ocispecAnnotationArtifactCreated : String :=
  "org.opencontainers.artifact.created"

/-- Model of the source store as consumed by the verified functions: a
content.ReadOnlyGraphStorage together with the optional registry
ReferrerFinder capability revealed by the Go type assertion
src.(registry.ReferrerFinder). Each fetch* field models one src.Fetch
followed by the JSON decode the caller performs on the fetched bytes:
fetchAnnotations decodes only the annotations field (none = absent or null
in the JSON), fetchArtifactManifest decodes an artifactspec.Manifest, and
so on. referrers returns the pages handed to the Referrers callback, in
page order; none means the store does not implement ReferrerFinder. -/
structure GraphSource where
  predecessors : Descriptor → Except Err (List Descriptor)
  fetchImageManifest : Descriptor → Except Err ImageManifest
  fetchIndexManifests : Descriptor → Except Err (List Descriptor)
  fetchArtifactManifest : Descriptor → Except Err ArtifactManifest
  fetchOCIArtifact : Descriptor → Except Err OCIArtifact
  fetchAnnotations : Descriptor → Except Err (Option (List (String × String)))
  referrers : Option (Descriptor → Except Err (List (List Descriptor))) := none

/-- The signature of ExtendedCopyGraphOptions.FindPredecessors (the context
argument is dropped; cancellation is out of scope of the model). -/
abbrev FindPredecessorsFn :=
  GraphSource → Descriptor → Except Err (List Descriptor)

/-- Model of oras.ExtendedCopyGraphOptions. The embedded CopyGraphOptions
only configure the downward copy phase, which is an external collaborator
here, so they are omitted. -/
structure ExtendedCopyGraphOptions where
  Depth : Int := 0
  FindPredecessors : Option FindPredecessorsFn := none

def DefaultExtendedCopyGraphOptions : ExtendedCopyGraphOptions := {}

/-- Modelled from the spec: internal/copyutil.NodeInfo, a stack entry
pairing a node with its depth in the upward walk. -/
structure NodeInfo where
  node : Descriptor
  depth : Nat
deriving DecidableEq, Repr

/-- The addRoot closure of findRoots: record a root only if its equivalence
key is not yet present (first writer wins). The Go map of roots is modelled
as an association list in insertion order; its key set and values coincide
with the Go map contents. -/
def addRoot (roots : List (Key × Descriptor)) (key : Key) (val : Descriptor) :
    List (Key × Descriptor) :=
  if key ∈ roots.map Prod.fst then roots else roots ++ [(key, val)]

/-- The loop of findRoots. The stack is a list with its head as the top
(internal/copyutil.Stack is a LIFO stack per the spec); visited is the key
set of the Go visited map; roots is the association list documented at
addRoot. fuel bounds the number of iterations: none means the fuel ran out
before the stack emptied. fetched is an auxiliary observation recording, in
order, the keys of the nodes on which FindPredecessors is invoked; it is
read by no branch and does not influence stack, visited or roots, which
follow the Go source. -/
def findRootsLoop (pred : Descriptor → Except Err (List Descriptor))
    (depth : Int) :
    Nat → List NodeInfo → List Key → List (Key × Descriptor) → List Key →
    Option (Except Err (List (Key × Descriptor) × List Key))
  | 0, _, _, _, _ => none
  | _ + 1, [], _, roots, fetched => some (.ok (roots, fetched))
  | fuel + 1, current :: stack, visited, roots, fetched =>
    let currentNode := current.node
    let currentKey := FromOCI currentNode
    if currentKey ∈ visited then
      -- skip the current node if it has been visited
      findRootsLoop pred depth fuel stack visited roots fetched
    else
      let visited := currentKey :: visited
      -- stop finding predecessors if the target depth is reached
      if 0 < depth ∧ (current.depth : Int) = depth then
        findRootsLoop pred depth fuel stack visited
          (addRoot roots currentKey currentNode) fetched
      else
        match pred currentNode with
        | .error e => some (.error e)
        | .ok predecessors =>
          let fetched := fetched ++ [currentKey]
          if predecessors.isEmpty then
            -- no predecessor: the current node is a root of a sub-DAG
            findRootsLoop pred depth fuel stack visited
              (addRoot roots currentKey currentNode) fetched
          else
            -- push the unvisited predecessor nodes with increased depth;
            -- pushing in list order onto a LIFO stack puts the last
            -- predecessor on top, hence the reverse on a head-is-top list
            let pushed :=
              (predecessors.filter
                (fun p => decide (FromOCI p ∉ visited))).map
                (fun p => NodeInfo.mk p (current.depth + 1))
            findRootsLoop pred depth fuel (pushed.reverse ++ stack) visited
              roots fetched

/-- The predecessor function findRoots falls back to when
opts.FindPredecessors is nil: src.Predecessors. -/
def defaultFindPredecessors : FindPredecessorsFn :=
  fun src desc => src.predecessors desc

/-- The predecessor function actually used by findRoots. -/
def effectiveFP (src : GraphSource) (opts : ExtendedCopyGraphOptions) :
    Descriptor → Except Err (List Descriptor) :=
  (opts.FindPredecessors.getD defaultFindPredecessors) src

/-- Model of findRoots: run the loop from the initial node at depth 0 with
empty visited set and empty roots map. -/
def findRoots (src : GraphSource) (opts : ExtendedCopyGraphOptions)
    (node : Descriptor) (fuel : Nat) :
    Option (Except Err (List (Key × Descriptor) × List Key)) :=
  findRootsLoop (effectiveFP src opts) opts.Depth fuel
    [{ node := node, depth := 0 }] [] [] []

/-- A list enumerates the entries of a Go map exactly when it is a
permutation of them: the Go specification leaves the iteration order of a
map range unspecified, so any order of the entries is a possible execution. -/
def IsGoMapRangeOrder {α β : Type} (entries order : List (α × β)) : Prop :=
  order.Perm entries

/-- The possible sequences of root descriptors that ExtendedCopyGraph hands
to CopyGraph (one sub-DAG copy per root): it ranges over the Go map
returned by findRoots, in some unspecified map iteration order. -/
def ExtendedCopyGraphCopies (src : GraphSource)
    (opts : ExtendedCopyGraphOptions) (node : Descriptor) (fuel : Nat)
    (copies : List Descriptor) : Prop :=
  ∃ roots fetched order,
    findRoots src opts node fuel = some (.ok (roots, fetched)) ∧
    IsGoMapRangeOrder roots order ∧
    copies = order.map Prod.snd

section StepLemmas

variable (pred : Descriptor → Except Err (List Descriptor)) (depth : Int)

theorem findRootsLoop_zero (stack : List NodeInfo) (visited : List Key)
    (roots : List (Key × Descriptor)) (fetched : List Key) :
    findRootsLoop pred depth 0 stack visited roots fetched = none := rfl

theorem findRootsLoop_nil (fuel : Nat) (visited : List Key)
    (roots : List (Key × Descriptor)) (fetched : List Key) :
    findRootsLoop pred depth (fuel + 1) [] visited roots fetched =
      some (.ok (roots, fetched)) := rfl

theorem findRootsLoop_visited {cur : NodeInfo} {visited : List Key}
    (fuel : Nat) (stack : List NodeInfo)
    (roots : List (Key × Descriptor)) (fetched : List Key)
    (hv : FromOCI cur.node ∈ visited) :
    findRootsLoop pred depth (fuel + 1) (cur :: stack) visited roots fetched =
      findRootsLoop pred depth fuel stack visited roots fetched := by
  simp [findRootsLoop, hv]

theorem findRootsLoop_capped {cur : NodeInfo} {visited : List Key}
    (fuel : Nat) (stack : List NodeInfo)
    (roots : List (Key × Descriptor)) (fetched : List Key)
    (hv : FromOCI cur.node ∉ visited)
    (hc : 0 < depth ∧ (cur.depth : Int) = depth) :
    findRootsLoop pred depth (fuel + 1) (cur :: stack) visited roots fetched =
      findRootsLoop pred depth fuel stack (FromOCI cur.node :: visited)
        (addRoot roots (FromOCI cur.node) cur.node) fetched := by
  simp [findRootsLoop, hv, hc]

theorem findRootsLoop_predError {cur : NodeInfo} {visited : List Key}
    {e : Err} (fuel : Nat) (stack : List NodeInfo)
    (roots : List (Key × Descriptor)) (fetched : List Key)
    (hv : FromOCI cur.node ∉ visited)
    (hc : ¬(0 < depth ∧ (cur.depth : Int) = depth))
    (hp : pred cur.node = .error e) :
    findRootsLoop pred depth (fuel + 1) (cur :: stack) visited roots fetched =
      some (.error e) := by
  simp [findRootsLoop, hv, hc, hp]

theorem findRootsLoop_predEmpty {cur : NodeInfo} {visited : List Key}
    (fuel : Nat) (stack : List NodeInfo)
    (roots : List (Key × Descriptor)) (fetched : List Key)
    (hv : FromOCI cur.node ∉ visited)
    (hc : ¬(0 < depth ∧ (cur.depth : Int) = depth))
    (hp : pred cur.node = .ok []) :
    findRootsLoop pred depth (fuel + 1) (cur :: stack) visited roots fetched =
      findRootsLoop pred depth fuel stack (FromOCI cur.node :: visited)
        (addRoot roots (FromOCI cur.node) cur.node)
        (fetched ++ [FromOCI cur.node]) := by
  simp [findRootsLoop, hv, hc, hp]

theorem findRootsLoop_predPush {cur : NodeInfo} {visited : List Key}
    {q : Descriptor} {qs : List Descriptor} (fuel : Nat)
    (stack : List NodeInfo)
    (roots : List (Key × Descriptor)) (fetched : List Key)
    (hv : FromOCI cur.node ∉ visited)
    (hc : ¬(0 < depth ∧ (cur.depth : Int) = depth))
    (hp : pred cur.node = .ok (q :: qs)) :
    findRootsLoop pred depth (fuel + 1) (cur :: stack) visited roots fetched =
      findRootsLoop pred depth fuel
        ((((q :: qs).filter
            (fun p => decide (FromOCI p ∉ FromOCI cur.node :: visited))).map
            (fun p => NodeInfo.mk p (cur.depth + 1))).reverse ++ stack)
        (FromOCI cur.node :: visited) roots
        (fetched ++ [FromOCI cur.node]) := by
  simp [findRootsLoop, hv, hc, hp]

end StepLemmas

section Invariants

theorem addRoot_keys_nodup {roots : List (Key × Descriptor)} (key : Key)
    (val : Descriptor) (h : (roots.map Prod.fst).Nodup) :
    ((addRoot roots key val).map Prod.fst).Nodup := by
  unfold addRoot
  split
  · exact h
  · rename_i hk
    simp only [List.map_append, List.map_cons, List.map_nil]
    rw [List.nodup_append]
    exact ⟨h, List.nodup_singleton _, by simpa [List.disjoint_singleton] using hk⟩

theorem mem_addRoot {roots : List (Key × Descriptor)} {key : Key}
    {val : Descriptor} {e : Key × Descriptor} (h : e ∈ addRoot roots key val) :
    e ∈ roots ∨ e = (key, val) := by
  unfold addRoot at h
  split at h
  · exact Or.inl h
  · rcases List.mem_append.mp h with h1 | h1
    · exact Or.inl h1
    · exact Or.inr (by simpa using h1)

/-- Within one traversal the roots map never records two entries with the
same equivalence key: the first writer wins and later duplicates are
ignored. -/
theorem findRootsLoop_roots_nodup
    (pred : Descriptor → Except Err (List Descriptor)) (depth : Int) :
    ∀ fuel stack visited (roots : List (Key × Descriptor)) fetched R F,
      (roots.map Prod.fst).Nodup →
      findRootsLoop pred depth fuel stack visited roots fetched =
        some (.ok (R, F)) →
      (R.map Prod.fst).Nodup := by
  intro fuel
  induction fuel with
  | zero =>
    intro stack visited roots fetched R F _ h
    rw [findRootsLoop_zero] at h
    cases h
  | succ n ih =>
    intro stack visited roots fetched R F hnd h
    match stack with
    | [] =>
      rw [findRootsLoop_nil] at h
      simp only [Option.some.injEq, Except.ok.injEq, Prod.mk.injEq] at h
      obtain ⟨rfl, rfl⟩ := h
      exact hnd
    | cur :: rest =>
      by_cases hv : FromOCI cur.node ∈ visited
      · rw [findRootsLoop_visited pred depth n rest roots fetched hv] at h
        exact ih rest visited roots fetched R F hnd h
      · by_cases hc : 0 < depth ∧ (cur.depth : Int) = depth
        · rw [findRootsLoop_capped pred depth n rest roots fetched hv hc] at h
          exact ih _ _ _ _ R F (addRoot_keys_nodup _ _ hnd) h
        · cases hp : pred cur.node with
          | error e =>
            rw [findRootsLoop_predError pred depth n rest roots fetched
              hv hc hp] at h
            simp at h
          | ok ps =>
            cases ps with
            | nil =>
              rw [findRootsLoop_predEmpty pred depth n rest roots fetched
                hv hc hp] at h
              exact ih _ _ _ _ R F (addRoot_keys_nodup _ _ hnd) h
            | cons q qs =>
              rw [findRootsLoop_predPush pred depth n rest roots fetched
                hv hc hp] at h
              exact ih _ _ _ _ R F hnd h

/-- The trace of FindPredecessors invocations never repeats an equivalence
key: a key is marked visited right before its node is fetched, and visited
keys are skipped at pop time and at push time. -/
theorem findRootsLoop_fetched_nodup
    (pred : Descriptor → Except Err (List Descriptor)) (depth : Int) :
    ∀ fuel stack visited roots (fetched : List Key) R F,
      fetched.Nodup → (∀ k ∈ fetched, k ∈ visited) →
      findRootsLoop pred depth fuel stack visited roots fetched =
        some (.ok (R, F)) →
      F.Nodup := by
  intro fuel
  induction fuel with
  | zero =>
    intro stack visited roots fetched R F _ _ h
    rw [findRootsLoop_zero] at h
    cases h
  | succ n ih =>
    intro stack visited roots fetched R F hnd hsub h
    match stack with
    | [] =>
      rw [findRootsLoop_nil] at h
      simp only [Option.some.injEq, Except.ok.injEq, Prod.mk.injEq] at h
      obtain ⟨rfl, rfl⟩ := h
      exact hnd
    | cur :: rest =>
      by_cases hv : FromOCI cur.node ∈ visited
      · rw [findRootsLoop_visited pred depth n rest roots fetched hv] at h
        exact ih rest visited roots fetched R F hnd hsub h
      · have hnotf : FromOCI cur.node ∉ fetched := fun hmem => hv (hsub _ hmem)
        have hnd' : (fetched ++ [FromOCI cur.node]).Nodup := by
          rw [List.nodup_append]
          exact ⟨hnd, List.nodup_singleton _,
            by simpa [List.disjoint_singleton] using hnotf⟩
        have hsub' : ∀ k ∈ fetched ++ [FromOCI cur.node],
            k ∈ FromOCI cur.node :: visited := by
          intro k hk
          rcases List.mem_append.mp hk with h1 | h1
          · exact List.mem_cons_of_mem _ (hsub _ h1)
          · simp only [List.mem_singleton] at h1
            exact h1 ▸ List.mem_cons_self _ _
        by_cases hc : 0 < depth ∧ (cur.depth : Int) = depth
        · rw [findRootsLoop_capped pred depth n rest roots fetched hv hc] at h
          exact ih _ _ _ _ R F hnd
            (fun k hk => List.mem_cons_of_mem _ (hsub _ hk)) h
        · cases hp : pred cur.node with
          | error e =>
            rw [findRootsLoop_predError pred depth n rest roots fetched
              hv hc hp] at h
            simp at h
          | ok ps =>
            cases ps with
            | nil =>
              rw [findRootsLoop_predEmpty pred depth n rest roots fetched
                hv hc hp] at h
              exact ih _ _ _ _ R F hnd' hsub' h
            | cons q qs =>
              rw [findRootsLoop_predPush pred depth n rest roots fetched
                hv hc hp] at h
              exact ih _ _ _ _ R F hnd' hsub' h

/-- Upward reachability: reachN pred d start x holds when x can be reached
from start by d successful predecessor-listing hops. -/
def reachN (pred : Descriptor → Except Err (List Descriptor)) :
    Nat → Descriptor → Descriptor → Prop
  | 0, start, d => d = start
  | n + 1, start, d =>
    ∃ c ps, reachN pred n start c ∧ pred c = .ok ps ∧ d ∈ ps

/-- Every recorded root lies at some upward hop-distance d from the initial
node, with d bounded by the depth cap whenever one is set; the invariant is
carried by the stack, whose entries store their exact discovery depth. -/
theorem findRootsLoop_roots_reach
    (pred : Descriptor → Except Err (List Descriptor)) (depth : Int)
    (node : Descriptor) :
    ∀ fuel stack visited (roots : List (Key × Descriptor)) fetched R F,
      (∀ e ∈ stack, reachN pred e.depth node e.node ∧
        (0 < depth → (e.depth : Int) ≤ depth)) →
      (∀ e ∈ roots, ∃ d : Nat, (0 < depth → (d : Int) ≤ depth) ∧
        reachN pred d node e.2) →
      findRootsLoop pred depth fuel stack visited roots fetched =
        some (.ok (R, F)) →
      ∀ e ∈ R, ∃ d : Nat, (0 < depth → (d : Int) ≤ depth) ∧
        reachN pred d node e.2 := by
  intro fuel
  induction fuel with
  | zero =>
    intro stack visited roots fetched R F _ _ h
    rw [findRootsLoop_zero] at h
    cases h
  | succ n ih =>
    intro stack visited roots fetched R F hstack hroots h
    match stack with
    | [] =>
      rw [findRootsLoop_nil] at h
      simp only [Option.some.injEq, Except.ok.injEq, Prod.mk.injEq] at h
      obtain ⟨rfl, rfl⟩ := h
      exact hroots
    | cur :: rest =>
      have hcur := hstack cur (List.mem_cons_self _ _)
      have hrest : ∀ e ∈ rest, reachN pred e.depth node e.node ∧
          (0 < depth → (e.depth : Int) ≤ depth) :=
        fun e he => hstack e (List.mem_cons_of_mem _ he)
      have haddR : ∀ e ∈ addRoot roots (FromOCI cur.node) cur.node,
          ∃ d : Nat, (0 < depth → (d : Int) ≤ depth) ∧
            reachN pred d node e.2 := by
        intro e he
        rcases mem_addRoot he with h1 | h1
        · exact hroots e h1
        · exact h1 ▸ ⟨cur.depth, hcur.2, hcur.1⟩
      by_cases hv : FromOCI cur.node ∈ visited
      · rw [findRootsLoop_visited pred depth n rest roots fetched hv] at h
        exact ih rest visited roots fetched R F hrest hroots h
      · by_cases hc : 0 < depth ∧ (cur.depth : Int) = depth
        · rw [findRootsLoop_capped pred depth n rest roots fetched hv hc] at h
          exact ih _ _ _ _ R F hrest haddR h
        · cases hp : pred cur.node with
          | error e =>
            rw [findRootsLoop_predError pred depth n rest roots fetched
              hv hc hp] at h
            simp at h
          | ok ps =>
            cases ps with
            | nil =>
              rw [findRootsLoop_predEmpty pred depth n rest roots fetched
                hv hc hp] at h
              exact ih _ _ _ _ R F hrest haddR h
            | cons q qs =>
              rw [findRootsLoop_predPush pred depth n rest roots fetched
                hv hc hp] at h
              refine ih _ _ _ _ R F ?_ hroots h
              intro e he
              rcases List.mem_append.mp he with h1 | h1
              · rw [List.mem_reverse] at h1
                obtain ⟨p, hpmem, rfl⟩ := List.mem_map.mp h1
                have hpin : p ∈ q :: qs := List.mem_of_mem_filter hpmem
                refine ⟨⟨cur.node, q :: qs, hcur.1, hp, hpin⟩, ?_⟩
                intro hd
                have h1 := hcur.2 hd
                have h2 : (cur.depth : Int) ≠ depth := fun heq => hc ⟨hd, heq⟩
                push_cast
                omega
              · exact hrest e h1

/-- Number of keys of the finite key universe U not yet visited. -/
def unvisCard (U : Finset Key) (visited : List Key) : Nat :=
  (U.filter (fun k => k ∉ visited)).card

theorem unvisCard_cons_lt (U : Finset Key) (visited : List Key) {k : Key}
    (hkU : k ∈ U) (hkv : k ∉ visited) :
    unvisCard U (k :: visited) < unvisCard U visited := by
  apply Finset.card_lt_card
  rw [Finset.ssubset_iff_of_subset]
  · exact ⟨k, Finset.mem_filter.mpr ⟨hkU, hkv⟩, by simp⟩
  · intro x hx
    rw [Finset.mem_filter] at hx ⊢
    exact ⟨hx.1, fun hmem => hx.2 (List.mem_cons_of_mem _ hmem)⟩

/-- When every stack entry is already visited, the loop drains the stack,
one unit of fuel per entry, and returns the accumulated state. -/
theorem findRootsLoop_allVisited
    (pred : Descriptor → Except Err (List Descriptor)) (depth : Int) :
    ∀ (stack : List NodeInfo) visited roots fetched,
      (∀ e ∈ stack, FromOCI e.node ∈ visited) →
      findRootsLoop pred depth (stack.length + 1) stack visited roots
        fetched = some (.ok (roots, fetched)) := by
  intro stack
  induction stack with
  | nil => intro visited roots fetched _; rfl
  | cons cur rest ih =>
    intro visited roots fetched hst
    rw [List.length_cons,
      findRootsLoop_visited pred depth (rest.length + 1) rest roots fetched
        (hst cur (List.mem_cons_self _ _))]
    exact ih visited roots fetched
      (fun e he => hst e (List.mem_cons_of_mem _ he))

/-- Termination of the upward walk on a finite key space: when a finite
universe U contains the key of every descriptor the predecessor function
can produce, and every stack key lies in U, then some finite fuel drains
the stack. Each loop iteration either shrinks the stack or moves a key of
U from unvisited to visited. -/
theorem findRootsLoop_terminates
    (pred : Descriptor → Except Err (List Descriptor)) (depth : Int)
    (U : Finset Key)
    (hU : ∀ d ps p, pred d = .ok ps → p ∈ ps → FromOCI p ∈ U) :
    ∀ N visited, unvisCard U visited ≤ N →
      ∀ stack, (∀ e ∈ stack, FromOCI e.node ∈ U) →
        ∀ roots fetched, ∃ fuel res,
          findRootsLoop pred depth fuel stack visited roots fetched =
            some res := by
  intro N
  induction N with
  | zero =>
    intro visited hcard stack hst roots fetched
    refine ⟨stack.length + 1, .ok (roots, fetched),
      findRootsLoop_allVisited pred depth stack visited roots fetched ?_⟩
    intro e he
    by_contra hnot
    have hmem : FromOCI e.node ∈ U.filter (fun k => k ∉ visited) :=
      Finset.mem_filter.mpr ⟨hst e he, hnot⟩
    have hzero : (U.filter (fun k => k ∉ visited)).card = 0 :=
      Nat.le_zero.mp hcard
    rw [Finset.card_eq_zero] at hzero
    rw [hzero] at hmem
    exact absurd hmem (Finset.not_mem_empty _)
  | succ N ih =>
    intro visited hcard stack
    induction stack with
    | nil =>
      intro _ roots fetched
      exact ⟨1, .ok (roots, fetched), rfl⟩
    | cons cur rest ihs =>
      intro hst roots fetched
      by_cases hv : FromOCI cur.node ∈ visited
      · obtain ⟨fuel, res, hres⟩ :=
          ihs (fun e he => hst e (List.mem_cons_of_mem _ he)) roots fetched
        exact ⟨fuel + 1, res, by
          rw [findRootsLoop_visited pred depth fuel rest roots fetched hv]
          exact hres⟩
      · have hkU : FromOCI cur.node ∈ U := hst cur (List.mem_cons_self _ _)
        have hle : unvisCard U (FromOCI cur.node :: visited) ≤ N := by
          have := unvisCard_cons_lt U visited hkU hv
          omega
        have hrestU : ∀ e ∈ rest, FromOCI e.node ∈ U :=
          fun e he => hst e (List.mem_cons_of_mem _ he)
        by_cases hc : 0 < depth ∧ (cur.depth : Int) = depth
        · obtain ⟨fuel, res, hres⟩ := ih (FromOCI cur.node :: visited) hle
            rest hrestU (addRoot roots (FromOCI cur.node) cur.node) fetched
          exact ⟨fuel + 1, res, by
            rw [findRootsLoop_capped pred depth fuel rest roots fetched hv hc]
            exact hres⟩
        · cases hp : pred cur.node with
          | error e =>
            exact ⟨1, .error e,
              findRootsLoop_predError pred depth 0 rest roots fetched
                hv hc hp⟩
          | ok ps =>
            cases ps with
            | nil =>
              obtain ⟨fuel, res, hres⟩ := ih (FromOCI cur.node :: visited)
                hle rest hrestU (addRoot roots (FromOCI cur.node) cur.node)
                (fetched ++ [FromOCI cur.node])
              exact ⟨fuel + 1, res, by
                rw [findRootsLoop_predEmpty pred depth fuel rest roots
                  fetched hv hc hp]
                exact hres⟩
            | cons q qs =>
              have hstack' : ∀ e ∈
                  ((((q :: qs).filter (fun p =>
                      decide (FromOCI p ∉ FromOCI cur.node :: visited))).map
                      (fun p => NodeInfo.mk p (cur.depth + 1))).reverse ++
                    rest),
                  FromOCI e.node ∈ U := by
                intro e he
                rcases List.mem_append.mp he with h1 | h1
                · rw [List.mem_reverse] at h1
                  obtain ⟨p, hpmem, rfl⟩ := List.mem_map.mp h1
                  exact hU cur.node (q :: qs) p hp
                    (List.mem_of_mem_filter hpmem)
                · exact hrestU e h1
              obtain ⟨fuel, res, hres⟩ := ih (FromOCI cur.node :: visited)
                hle _ hstack' roots (fetched ++ [FromOCI cur.node])
              exact ⟨fuel + 1, res, by
                rw [findRootsLoop_predPush pred depth fuel rest roots
                  fetched hv hc hp]
                exact hres⟩

end Invariants

section Filters

/-- Lookup in a possibly-nil Go map[string]string: a lookup in the nil map
returns no value. -/
def annotLookup (a : Option (List (String × String))) (k : String) :
    Option String :=
  match a with
  | none => none
  | some l => (l.find? (fun e => decide (e.1 = k))).map Prod.snd

/-- The media types of the fetch-and-graft switch inside FilterAnnotation:
docker manifest, OCI image manifest, docker manifest list, OCI image index
and the legacy artifact manifest. The modern OCI artifact manifest media
type is absent from the switch in the source. -/
def annotationFetchMediaTypes : List String :=
  [dockerMediaTypeManifest, ocispecMediaTypeImageManifest,
   dockerMediaTypeManifestList, ocispecMediaTypeImageIndex,
   artifactspecMediaTypeArtifactManifest]

/-- The per-predecessor graft step of FilterAnnotation: when the in-memory
descriptor has a nil annotations map and its media type is in the switch,
fetch the manifest, decode its annotations field and graft it onto the
descriptor, an empty non-nil map when the field is absent; otherwise the
descriptor passes through unchanged. -/
def graftAnnotations
    (fa : Descriptor → Except Err (Option (List (String × String))))
    (p : Descriptor) : Except Err Descriptor :=
  match p.Annotations with
  | some _ => .ok p
  | none =>
    if p.MediaType ∈ annotationFetchMediaTypes then
      match fa p with
      | .error e => .error e
      | .ok none => .ok { p with Annotations := some [] }
      | .ok (some m) => .ok { p with Annotations := some m }
    else .ok p

/-- The keep test of FilterAnnotation: value, ok := p.Annotations[key];
keep iff ok and the regex is nil or matches the value. -/
def keepAnnot (key : String) (regex : Option (String → Bool))
    (p : Descriptor) : Bool :=
  match annotLookup p.Annotations key with
  | some v =>
    match regex with
    | none => true
    | some r => r v
  | none => false

/-- The filtering loop of the FilterAnnotation wrapper over the predecessor
list, in order; the first graft error aborts the whole call. -/
def filterAnnotationList
    (fa : Descriptor → Except Err (Option (List (String × String))))
    (key : String) (regex : Option (String → Bool)) :
    List Descriptor → Except Err (List Descriptor)
  | [] => .ok []
  | p :: rest =>
    match graftAnnotations fa p with
    | .error e => .error e
    | .ok p' =>
      match filterAnnotationList fa key regex rest with
      | .error e => .error e
      | .ok tail => .ok (if keepAnnot key regex p' then p' :: tail else tail)

/-- Model of ExtendedCopyGraphOptions.FilterAnnotation: wrap the previous
FindPredecessors (or src.Predecessors when none was installed) with the
annotation graft-and-filter pass. -/
def FilterAnnotationWrap (opts : ExtendedCopyGraphOptions) (key : String)
    (regex : Option (String → Bool)) : ExtendedCopyGraphOptions :=
  let fp := opts.FindPredecessors
  { opts with FindPredecessors := some (fun src desc =>
      match (match fp with
             | none => src.predecessors desc
             | some f => f src desc) with
      | .error e => .error e
      | .ok predecessors =>
        filterAnnotationList src.fetchAnnotations key regex predecessors) }

/-- Spec-side decomposition of the filter pass: graft every descriptor of
the list, failing on the first error, without filtering. Stated by the
spec's words ("fetch and decode just its annotations field and graft it
onto the descriptor"); compared against filterAnnotationList, which comes
from the source. -/
def graftAll
    (fa : Descriptor → Except Err (Option (List (String × String)))) :
    List Descriptor → Except Err (List Descriptor)
  | [] => .ok []
  | p :: rest =>
    match graftAnnotations fa p with
    | .error e => .error e
    | .ok p' =>
      match graftAll fa rest with
      | .error e => .error e
      | .ok tail => .ok (p' :: tail)

/-- Model of findReferrersAndFilter: walk the referrer pages in order and
collect, page by page and in page order, the referrers whose artifact type
matches the regex. -/
def findReferrersAndFilter
    (rf : Descriptor → Except Err (List (List Descriptor)))
    (desc : Descriptor) (rx : String → Bool) : Except Err (List Descriptor) :=
  match rf desc with
  | .error e => .error e
  | .ok pages =>
    .ok (pages.foldl
      (fun acc page => acc ++ page.filter (fun r => rx r.ArtifactType)) [])

/-- The filtering loop of the FilterArtifactType wrapper: a predecessor of
the legacy artifact manifest media type is fetched, decoded and kept iff
its manifest's artifact type matches; predecessors of every other media
type are dropped. The first fetch or decode error aborts the call. -/
def filterByArtifactType (src : GraphSource) (rx : String → Bool) :
    List Descriptor → Except Err (List Descriptor)
  | [] => .ok []
  | p :: rest =>
    if p.MediaType = artifactspecMediaTypeArtifactManifest then
      match src.fetchArtifactManifest p with
      | .error e => .error e
      | .ok m =>
        match filterByArtifactType src rx rest with
        | .error e => .error e
        | .ok tail => .ok (if rx m.ArtifactType then p :: tail else tail)
    else filterByArtifactType src rx rest

/-- Model of ExtendedCopyGraphOptions.FilterArtifactType: a nil regex is a
no-op; otherwise install a FindPredecessors that takes the Referrers fast
path exactly when no previous override was installed and the source
implements ReferrerFinder, and that otherwise filters the predecessor list
of the previous override (or of src.Predecessors) by artifact type. -/
def FilterArtifactType (opts : ExtendedCopyGraphOptions)
    (regex : Option (String → Bool)) : ExtendedCopyGraphOptions :=
  match regex with
  | none => opts
  | some rx =>
    let fp := opts.FindPredecessors
    { opts with FindPredecessors := some (fun src desc =>
        match fp with
        | none =>
          match src.referrers with
          | some rf => findReferrersAndFilter rf desc rx
          | none =>
            match src.predecessors desc with
            | .error e => .error e
            | .ok predecessors => filterByArtifactType src rx predecessors
        | some f =>
          match f src desc with
          | .error e => .error e
          | .ok predecessors => filterByArtifactType src rx predecessors) }

/-- The pure keep predicate characterizing filterByArtifactType on runs
that return ok: legacy-artifact media type and a successfully fetched
manifest whose artifact type matches. -/
def keepArtifact (src : GraphSource) (rx : String → Bool)
    (p : Descriptor) : Bool :=
  decide (p.MediaType = artifactspecMediaTypeArtifactManifest) &&
    (match src.fetchArtifactManifest p with
     | .ok m => rx m.ArtifactType
     | .error _ => false)

end Filters

section SuccessorsModel

/-- Modelled from the spec: internal/descriptor.ArtifactToOCI, the
normalization of a legacy artifact descriptor to the unified OCI descriptor
shape; the spec has it carry over media_type, digest, size, artifactType
and annotations. The defining Go file is not part of the sources here. -/
def artifactToOCI (d : ArtifactDescriptor) : Descriptor :=
  { MediaType := d.MediaType, Digest := d.Digest, Size := d.Size,
    Annotations := d.Annotations, ArtifactType := d.ArtifactType }

/-- Model of content.Successors: dispatch on the media type, fetch and
decode the manifest, and enumerate its children; config before layers for
image manifests, subject (when present) before blobs for artifact
manifests, the empty list for unrecognized media types. -/
def Successors (src : GraphSource) (node : Descriptor) :
    Except Err (List Descriptor) :=
  if node.MediaType = dockerMediaTypeManifest ∨
      node.MediaType = ocispecMediaTypeImageManifest then
    match src.fetchImageManifest node with
    | .error e => .error e
    | .ok m => .ok (m.Config :: m.Layers)
  else if node.MediaType = dockerMediaTypeManifestList ∨
      node.MediaType = ocispecMediaTypeImageIndex then
    match src.fetchIndexManifests node with
    | .error e => .error e
    | .ok ms => .ok ms
  else if node.MediaType = artifactspecMediaTypeArtifactManifest then
    match src.fetchArtifactManifest node with
    | .error e => .error e
    | .ok m =>
      .ok ((match m.Subject with
            | some s => [artifactToOCI s]
            | none => []) ++ m.Blobs.map artifactToOCI)
  else if node.MediaType = ocispecMediaTypeArtifactManifest then
    match src.fetchOCIArtifact node with
    | .error e => .error e
    | .ok m =>
      .ok ((match m.Subject with
            | some s => [s]
            | none => []) ++ m.Blobs)
  else .ok []

end SuccessorsModel

section PackModel

/-- The two validation errors of PackArtifact named by the spec. -/
inductive PackError where
  | missingArtifactType
  | invalidDateTimeFormat
deriving DecidableEq, Repr

/-- The artifact manifest value PackArtifact builds and pushes. -/
structure ArtifactManifestBuild where
  MediaType : String
  ArtifactType : String
  Blobs : List Descriptor
  Subject : Option Descriptor
  Annotations : List (String × String)
deriving DecidableEq, Repr

/-- Modelled from the spec: oras.PackArtifact, whose defining Go file is
not part of the sources here (only its tests are). Per the spec it first
fails with MissingArtifactType on an empty artifact type; then, when the
manifest annotations carry the reserved created key, it validates the value
as RFC 3339 and fails with InvalidDateTimeFormat otherwise, and when the
key is absent it inserts the current time. On success it builds the
artifact manifest and pushes it to the destination; the second component
lists the manifests pushed, so an error pushes nothing. RFC 3339 parsing
and the wall clock are oracles (rfc3339Valid, now). -/
def packArtifact (rfc3339Valid : String → Bool) (now : String)
    (artifactType : String) (blobs : List Descriptor)
    (subject : Option Descriptor)
    (manifestAnnotations : Option (List (String × String))) :
    Except PackError ArtifactManifestBuild × List ArtifactManifestBuild :=
  if artifactType = "" then (.error .missingArtifactType, [])
  else
    match annotLookup manifestAnnotations ocispecAnnotationArtifactCreated with
    | some v =>
      if rfc3339Valid v then
        let m : ArtifactManifestBuild :=
          { MediaType := ocispecMediaTypeArtifactManifest,
            ArtifactType := artifactType, Blobs := blobs, Subject := subject,
            Annotations := manifestAnnotations.getD [] }
        (.ok m, [m])
      else (.error .invalidDateTimeFormat, [])
    | none =>
      let m : ArtifactManifestBuild :=
        { MediaType := ocispecMediaTypeArtifactManifest,
          ArtifactType := artifactType, Blobs := blobs, Subject := subject,
          Annotations := manifestAnnotations.getD [] ++
            [(ocispecAnnotationArtifactCreated, now)] }
      (.ok m, [m])

/-- A concrete stand-in for the RFC 3339 shape test, used to instantiate
the rfc3339Valid oracle on concrete inputs: digits and separators of the
date-time prefix YYYY-MM-DDTHH:MM:SS followed by a non-empty remainder.
It rejects the slash-separated test value and accepts Zulu timestamps. -/
def rfc3339Like (s : String) : Bool :=
  match s.data with
  | y1 :: y2 :: y3 :: y4 :: s1 :: m1 :: m2 :: s2 :: d1 :: d2 :: t ::
      h1 :: h2 :: c1 :: mi1 :: mi2 :: c2 :: se1 :: se2 :: rest =>
    y1.isDigit && y2.isDigit && y3.isDigit && y4.isDigit && (s1 == '-') &&
    m1.isDigit && m2.isDigit && (s2 == '-') && d1.isDigit && d2.isDigit &&
    (t == 'T') && h1.isDigit && h2.isDigit && (c1 == ':') &&
    mi1.isDigit && mi2.isDigit && (c2 == ':') && se1.isDigit &&
    se2.isDigit && !rest.isEmpty
  | _ => false

end PackModel

section ExtendedCopyModel

/-- Model of oras.ExtendedCopy. The stores appear through their nilness
flags and through oracles for the three operations the function performs in
order: src.Resolve on the source reference, ExtendedCopyGraph on the
resolved node, dst.Tag on that node. The second component is an
observation: the Tag calls issued, as (node, reference) pairs, whether or
not the call succeeds. -/
def extendedCopy (resolve : String → Except Err Descriptor)
    (copyGraph : Descriptor → Except Err Unit)
    (tag : Descriptor → String → Except Err Unit)
    (srcIsNil dstIsNil : Bool) (srcRef dstRef : String) :
    Except Err Descriptor × List (Descriptor × String) :=
  if srcIsNil then (.error "nil source graph target", [])
  else if dstIsNil then (.error "nil destination target", [])
  else
    let dstRef := if dstRef = "" then srcRef else dstRef
    match resolve srcRef with
    | .error e => (.error e, [])
    | .ok node =>
      match copyGraph node with
      | .error e => (.error e, [])
      | .ok _ =>
        match tag node dstRef with
        | .error e => (.error e, [(node, dstRef)])
        | .ok _ => (.ok node, [(node, dstRef)])

end ExtendedCopyModel

section FilterLemmas

/-- A successful run of the FilterAnnotation pass is the graft of every
predecessor followed by a pure filter with the keep test. -/
theorem filterAnnotationList_eq_graftAll_filter
    (fa : Descriptor → Except Err (Option (List (String × String))))
    (key : String) (regex : Option (String → Bool)) :
    ∀ ps out, filterAnnotationList fa key regex ps = .ok out →
      ∃ qs, graftAll fa ps = .ok qs ∧
        out = qs.filter (keepAnnot key regex) := by
  intro ps
  induction ps with
  | nil =>
    intro out h
    simp only [filterAnnotationList, Except.ok.injEq] at h
    exact ⟨[], rfl, by simp [← h]⟩
  | cons p rest ih =>
    intro out h
    simp only [filterAnnotationList] at h
    cases hg : graftAnnotations fa p with
    | error e => simp only [hg] at h; cases h
    | ok p' =>
      simp only [hg] at h
      cases hrest : filterAnnotationList fa key regex rest with
      | error e => simp only [hrest] at h; cases h
      | ok tail =>
        simp only [hrest, Except.ok.injEq] at h
        obtain ⟨qs, hq, htail⟩ := ih tail hrest
        refine ⟨p' :: qs, ?_, ?_⟩
        · simp only [graftAll, hg, hq]
        · rw [← h, htail, List.filter_cons]

theorem graftAnnotations_fetch
    (fa : Descriptor → Except Err (Option (List (String × String))))
    (p : Descriptor) (hnil : p.Annotations = none)
    (hmt : p.MediaType ∈ annotationFetchMediaTypes) :
    graftAnnotations fa p =
      (fa p).map (fun a => { p with Annotations := some (a.getD []) }) := by
  unfold graftAnnotations
  rw [hnil]
  rw [if_pos hmt]
  cases hfa : fa p with
  | error e => simp [Except.map]
  | ok a => cases a <;> simp [Except.map, Option.getD]

/-- A successful run of the FilterArtifactType pass is a pure filter with
the keep test. -/
theorem filterByArtifactType_eq_filter (src : GraphSource)
    (rx : String → Bool) :
    ∀ ps out, filterByArtifactType src rx ps = .ok out →
      out = ps.filter (keepArtifact src rx) := by
  intro ps
  induction ps with
  | nil =>
    intro out h
    simp only [filterByArtifactType, Except.ok.injEq] at h
    simp [← h]
  | cons p rest ih =>
    intro out h
    simp only [filterByArtifactType] at h
    by_cases hmt : p.MediaType = artifactspecMediaTypeArtifactManifest
    · rw [if_pos hmt] at h
      cases hfm : src.fetchArtifactManifest p with
      | error e => simp only [hfm] at h; cases h
      | ok m =>
        simp only [hfm] at h
        cases hrest : filterByArtifactType src rx rest with
        | error e => simp only [hrest] at h; cases h
        | ok tail =>
          simp only [hrest, Except.ok.injEq] at h
          have hkeep : keepArtifact src rx p = rx m.ArtifactType := by
            simp [keepArtifact, hmt, hfm]
          rw [← h, List.filter_cons, hkeep, ih tail hrest]
    · rw [if_neg hmt] at h
      have hkeep : keepArtifact src rx p = false := by
        simp [keepArtifact, hmt]
      rw [ih out h, List.filter_cons, hkeep]
      simp

/-- filterByArtifactType reads the source only through
fetchArtifactManifest; in particular it never consults referrers. -/
theorem filterByArtifactType_congr (s₁ s₂ : GraphSource)
    (rx : String → Bool)
    (hfa : s₁.fetchArtifactManifest = s₂.fetchArtifactManifest) :
    ∀ ps, filterByArtifactType s₁ rx ps = filterByArtifactType s₂ rx ps := by
  intro ps
  induction ps with
  | nil => rfl
  | cons p rest ih => simp only [filterByArtifactType, hfa, ih]

end FilterLemmas

section Examples

/-- A source all whose fetch oracles fail and that exposes no capability:
the base the concrete examples override. -/
def noFetchSource : GraphSource where
  predecessors := fun _ => .ok []
  fetchImageManifest := fun _ => .error "not found"
  fetchIndexManifests := fun _ => .error "not found"
  fetchArtifactManifest := fun _ => .error "not found"
  fetchOCIArtifact := fun _ => .error "not found"
  fetchAnnotations := fun _ => .error "not found"
  referrers := none

def dA : Descriptor := { MediaType := "application/example", Digest := "sha256:a", Size := 2 }

def dB : Descriptor := { MediaType := "application/example", Digest := "sha256:b", Size := 2 }

def dC : Descriptor := { MediaType := "application/example", Digest := "sha256:c", Size := 2 }

def dR1 : Descriptor := { MediaType := "application/example", Digest := "sha256:r1", Size := 2 }

def dR2 : Descriptor := { MediaType := "application/example", Digest := "sha256:r2", Size := 2 }

def twoRootsPreds (d : Descriptor) : List Descriptor :=
  if d.Digest = "sha256:a" then [dR1, dR2] else []

/-- A two-root graph: dA has the two predecessors dR1 and dR2, which have
none; the LIFO walk discovers dR2 as a root before dR1. -/
def srcTwoRoots : GraphSource :=
  { noFetchSource with predecessors := fun d => .ok (twoRootsPreds d) }

def cycPreds (d : Descriptor) : List Descriptor :=
  if d.Digest = "sha256:a" then [dB]
  else if d.Digest = "sha256:b" then [dA] else []

/-- A cyclic predecessor relation: dA and dB point at each other. -/
def srcCyc : GraphSource :=
  { noFetchSource with predecessors := fun d => .ok (cycPreds d) }

def chainPreds (d : Descriptor) : List Descriptor :=
  if d.Digest = "sha256:a" then [dB]
  else if d.Digest = "sha256:b" then [dC] else []

/-- A three-node upward chain dA, dB, dC with dC a root. -/
def srcChain : GraphSource :=
  { noFetchSource with predecessors := fun d => .ok (chainPreds d) }

def optsDepth1 : ExtendedCopyGraphOptions := { Depth := 1 }

def pAnn1 : Descriptor :=
  { MediaType := ocispecMediaTypeImageManifest, Digest := "sha256:p1",
    Size := 5, Annotations := some [("k", "v1")] }

def pAnn2 : Descriptor :=
  { MediaType := ocispecMediaTypeImageManifest, Digest := "sha256:p2",
    Size := 5 }

def pAnn3 : Descriptor :=
  { MediaType := "application/example", Digest := "sha256:p3", Size := 5 }

def annotOracle (d : Descriptor) :
    Option (List (String × String)) :=
  if d.Digest = "sha256:p2" then some [("k", "v2")] else none

/-- A source whose annotation decode yields a map containing key k only
for the descriptor with digest sha256:p2. -/
def srcAnnot : GraphSource :=
  { noFetchSource with fetchAnnotations := fun d => .ok (annotOracle d) }

/-- A modern OCI artifact manifest descriptor with a nil annotations map. -/
def pOCIArt : Descriptor :=
  { MediaType := ocispecMediaTypeArtifactManifest, Digest := "sha256:oa",
    Size := 7 }

/-- An annotation oracle whose decode of any manifest yields a map binding
key k. -/
def faCex : Descriptor → Except Err (Option (List (String × String))) :=
  fun _ => .ok (some [("k", "v")])

def rxX : String → Bool := fun s => s == "x"

def ref1 : Descriptor :=
  { MediaType := artifactspecMediaTypeArtifactManifest,
    Digest := "sha256:f1", Size := 3, ArtifactType := "x" }

def ref2 : Descriptor :=
  { MediaType := artifactspecMediaTypeArtifactManifest,
    Digest := "sha256:f2", Size := 3, ArtifactType := "y" }

def ref3 : Descriptor :=
  { MediaType := artifactspecMediaTypeArtifactManifest,
    Digest := "sha256:f3", Size := 3, ArtifactType := "x" }

/-- Two referrer pages with artifact types x, y and x. -/
def rfEx : Descriptor → Except Err (List (List Descriptor)) :=
  fun _ => .ok [[ref1, ref2], [ref3]]

/-- A source that implements ReferrerFinder. -/
def srcFast : GraphSource := { noFetchSource with referrers := some rfEx }

def pL1 : Descriptor :=
  { MediaType := artifactspecMediaTypeArtifactManifest,
    Digest := "sha256:l1", Size := 4 }

def pOther : Descriptor :=
  { MediaType := "application/example", Digest := "sha256:l0", Size := 4 }

def pL2 : Descriptor :=
  { MediaType := artifactspecMediaTypeArtifactManifest,
    Digest := "sha256:l2", Size := 4 }

def artOracle (d : Descriptor) : ArtifactManifest :=
  { ArtifactType := if d.Digest = "sha256:l1" then "x" else "y" }

/-- A source whose artifact manifest decode yields artifact type x only
for the descriptor with digest sha256:l1 and y otherwise. -/
def srcArt : GraphSource :=
  { noFetchSource with fetchArtifactManifest := fun d => .ok (artOracle d) }

def cfgD : Descriptor :=
  { MediaType := "application/vnd.oci.image.config.v1+json",
    Digest := "sha256:cfg", Size := 2 }

def layer1D : Descriptor :=
  { MediaType := "application/example", Digest := "sha256:lay1", Size := 11 }

def layer2D : Descriptor :=
  { MediaType := "application/example", Digest := "sha256:lay2", Size := 13 }

def mImg : ImageManifest := { Config := cfgD, Layers := [layer1D, layer2D] }

def nodeImg : Descriptor :=
  { MediaType := ocispecMediaTypeImageManifest, Digest := "sha256:n5",
    Size := 9 }

def srcImg : GraphSource :=
  { noFetchSource with fetchImageManifest := fun _ => .ok mImg }

def adS : ArtifactDescriptor :=
  { MediaType := ocispecMediaTypeImageManifest, Digest := "sha256:subj",
    Size := 6 }

def ad1 : ArtifactDescriptor :=
  { MediaType := "application/example", Digest := "sha256:b1", Size := 1,
    Annotations := some [("a", "b")], ArtifactType := "t1" }

def ad2 : ArtifactDescriptor :=
  { MediaType := "application/example", Digest := "sha256:b2", Size := 1 }

def amLegacy : ArtifactManifest :=
  { ArtifactType := "t", Blobs := [ad1, ad2], Subject := some adS }

def nodeLegacy : Descriptor :=
  { MediaType := artifactspecMediaTypeArtifactManifest,
    Digest := "sha256:n6", Size := 9 }

def srcLegacy : GraphSource :=
  { noFetchSource with fetchArtifactManifest := fun _ => .ok amLegacy }

def resolveEx : String → Except Err Descriptor :=
  fun r => if r = "latest" then .ok dA else .error "not found"

def copyGraphEx : Descriptor → Except Err Unit := fun _ => .ok ()

def tagEx : Descriptor → String → Except Err Unit := fun _ _ => .ok ()

end Examples

section Claims

/-- C1, counterexample: findRoots on the two-root graph discovers dR2
before dR1, yet the copy sequence [dR1, dR2] is a possible ExtendedCopyGraph
execution, because ranging over the Go roots map may enumerate the entries
in any order; so the per-root sub-DAG copies are not performed in
first-discovery order. -/
theorem extendedCopyGraph_discovery_order_cex :
    findRoots srcTwoRoots DefaultExtendedCopyGraphOptions dA 10 =
      some (.ok ([(FromOCI dR2, dR2), (FromOCI dR1, dR1)],
        [FromOCI dA, FromOCI dR2, FromOCI dR1])) ∧
    ExtendedCopyGraphCopies srcTwoRoots DefaultExtendedCopyGraphOptions dA 10
      [dR1, dR2] ∧
    [dR1, dR2] ≠
      [(FromOCI dR2, dR2), (FromOCI dR1, dR1)].map Prod.snd := by
  refine ⟨rfl, ⟨[(FromOCI dR2, dR2), (FromOCI dR1, dR1)],
    [FromOCI dA, FromOCI dR2, FromOCI dR1],
    [(FromOCI dR1, dR1), (FromOCI dR2, dR2)], rfl,
    List.Perm.swap _ _ _, rfl⟩, by decide⟩

/-- C1, amended: the roots map of findRoots records each root once per
equivalence key with the first-discovered descriptor (first writer wins),
and every copy sequence ExtendedCopyGraph may perform is a permutation of
the first-discovery sequence of roots; the order itself is the unspecified
Go map iteration order. -/
theorem extendedCopyGraph_copies_perm (src : GraphSource)
    (opts : ExtendedCopyGraphOptions) (node : Descriptor) (fuel : Nat)
    (R : List (Key × Descriptor)) (F : List Key)
    (h : findRoots src opts node fuel = some (.ok (R, F))) :
    (R.map Prod.fst).Nodup ∧
    ∀ copies, ExtendedCopyGraphCopies src opts node fuel copies →
      copies.Perm (R.map Prod.snd) := by
  constructor
  · exact findRootsLoop_roots_nodup _ _ fuel _ _ _ _ R F (by simp) h
  · intro copies hc
    obtain ⟨R', F', order, h', hperm, rfl⟩ := hc
    rw [h] at h'
    simp only [Option.some.injEq, Except.ok.injEq, Prod.mk.injEq] at h'
    obtain ⟨h1, _⟩ := h'
    subst h1
    exact hperm.map Prod.snd

theorem extendedCopyGraph_copies_perm_witness :
    (([(FromOCI dR2, dR2), (FromOCI dR1, dR1)].map Prod.fst).Nodup) ∧
    [dR1, dR2].Perm
      ([(FromOCI dR2, dR2), (FromOCI dR1, dR1)].map Prod.snd) := by
  have h := extendedCopyGraph_copies_perm srcTwoRoots
    DefaultExtendedCopyGraphOptions dA 10
    [(FromOCI dR2, dR2), (FromOCI dR1, dR1)]
    [FromOCI dA, FromOCI dR2, FromOCI dR1] rfl
  refine ⟨h.1, h.2 [dR1, dR2] ⟨[(FromOCI dR2, dR2), (FromOCI dR1, dR1)],
    [FromOCI dA, FromOCI dR2, FromOCI dR1],
    [(FromOCI dR1, dR1), (FromOCI dR2, dR2)], rfl,
    List.Perm.swap _ _ _, rfl⟩⟩

/-- C2, counterexample: a predecessor whose media type is the modern OCI
artifact manifest, one of the spec's manifest variants, with a nil
in-memory annotations map is not grafted, the manifest is not fetched, and
the predecessor is dropped, even though the decoded manifest annotations
contain the key and the regex is nil: the fetch-and-graft switch of
FilterAnnotation omits the OCI artifact manifest media type. -/
theorem filterAnnotation_oci_artifact_cex :
    pOCIArt.Annotations = none ∧
    pOCIArt.MediaType = ocispecMediaTypeArtifactManifest ∧
    faCex pOCIArt = .ok (some [("k", "v")]) ∧
    graftAnnotations faCex pOCIArt = .ok pOCIArt ∧
    filterAnnotationList faCex "k" none [pOCIArt] = .ok [] :=
  ⟨rfl, rfl, rfl, rfl, rfl⟩

/-- C2, amended: in the wrapped path of FilterAnnotation, a successful run
equals grafting every predecessor and then filtering by the keep test, so a
predecessor is kept iff its (possibly grafted) annotations bind the key and
the regex is nil or matches the value; and for a predecessor with nil
in-memory annotations the graft fetches and decodes the annotations field
(empty mapping when absent) exactly when its media type is one of docker
manifest, OCI image manifest, docker manifest list, OCI image index or the
legacy artifact manifest — the modern OCI artifact manifest media type is
not in the switch. -/
theorem filterAnnotationList_spec
    (fa : Descriptor → Except Err (Option (List (String × String))))
    (key : String) (regex : Option (String → Bool))
    (ps out : List Descriptor)
    (h : filterAnnotationList fa key regex ps = .ok out) :
    (∃ qs, graftAll fa ps = .ok qs ∧
      out = qs.filter (keepAnnot key regex)) ∧
    (∀ p, p.Annotations = none → p.MediaType ∈ annotationFetchMediaTypes →
      graftAnnotations fa p =
        (fa p).map (fun a => { p with Annotations := some (a.getD []) })) :=
  ⟨filterAnnotationList_eq_graftAll_filter fa key regex ps out h,
   fun p h1 h2 => graftAnnotations_fetch fa p h1 h2⟩

theorem filterAnnotationList_spec_witness :
    graftAnnotations srcAnnot.fetchAnnotations pAnn2 =
      (srcAnnot.fetchAnnotations pAnn2).map
        (fun a => { pAnn2 with Annotations := some (a.getD []) }) := by
  have h := filterAnnotationList_spec srcAnnot.fetchAnnotations "k" none
    [pAnn1, pAnn2, pAnn3]
    [pAnn1, { pAnn2 with Annotations := some [("k", "v2")] }] rfl
  exact h.2 pAnn2 rfl (by decide)

/-- C3: with a positive depth cap, every root recorded by findRoots lies at
an upward hop-distance of at most Depth from the initial node, and popping
an unvisited node whose recorded depth equals the cap records it as a root
and moves on without invoking the predecessor function (the fetch trace is
left unchanged). -/
theorem findRoots_depth_cap (src : GraphSource)
    (opts : ExtendedCopyGraphOptions) (node : Descriptor) (fuel : Nat)
    (R : List (Key × Descriptor)) (F : List Key) (hd : 0 < opts.Depth)
    (h : findRoots src opts node fuel = some (.ok (R, F))) :
    (∀ e ∈ R, ∃ d : Nat, (d : Int) ≤ opts.Depth ∧
      reachN (effectiveFP src opts) d node e.2) ∧
    (∀ (fuel' : Nat) (cur : NodeInfo) stack visited roots fetched,
      FromOCI cur.node ∉ visited → (cur.depth : Int) = opts.Depth →
      findRootsLoop (effectiveFP src opts) opts.Depth (fuel' + 1)
          (cur :: stack) visited roots fetched =
        findRootsLoop (effectiveFP src opts) opts.Depth fuel' stack
          (FromOCI cur.node :: visited)
          (addRoot roots (FromOCI cur.node) cur.node) fetched) := by
  constructor
  · intro e he
    have hres := findRootsLoop_roots_reach (effectiveFP src opts) opts.Depth
      node fuel [{ node := node, depth := 0 }] [] [] [] R F ?_ (by simp) h
      e he
    · obtain ⟨d, hbd, hr⟩ := hres
      exact ⟨d, hbd hd, hr⟩
    · intro e' he'
      simp only [List.mem_singleton] at he'
      subst he'
      exact ⟨rfl, fun _ => by simpa using hd.le⟩
  · intro fuel' cur stack visited roots fetched hv hdep
    exact findRootsLoop_capped _ _ fuel' stack roots fetched hv ⟨hd, hdep⟩

theorem findRoots_depth_cap_witness :
    ∃ d : Nat, (d : Int) ≤ optsDepth1.Depth ∧
      reachN (effectiveFP srcChain optsDepth1) d dA dB := by
  have h := findRoots_depth_cap srcChain optsDepth1 dA 10
    [(FromOCI dB, dB)] [FromOCI dA] (by decide) rfl
  exact h.1 (FromOCI dB, dB) (by decide)

/-- C4: within a single findRoots traversal the predecessor function is
invoked at most once per equivalence key (the fetch trace has no duplicate
key), a node whose key was already visited is skipped at pop time without
any effect, and on any finite key space containing the keys of the initial
node and of every producible predecessor some finite fuel completes the
traversal, cycles included. -/
theorem findRoots_fetch_once_terminates :
    (∀ (src : GraphSource) (opts : ExtendedCopyGraphOptions) node fuel R F,
      findRoots src opts node fuel = some (.ok (R, F)) → F.Nodup) ∧
    (∀ (pred : Descriptor → Except Err (List Descriptor)) (depth : Int)
        (fuel : Nat) (cur : NodeInfo) stack visited roots fetched,
      FromOCI cur.node ∈ visited →
      findRootsLoop pred depth (fuel + 1) (cur :: stack) visited roots
          fetched =
        findRootsLoop pred depth fuel stack visited roots fetched) ∧
    (∀ (src : GraphSource) (opts : ExtendedCopyGraphOptions) node
        (U : Finset Key),
      FromOCI node ∈ U →
      (∀ d ps p, effectiveFP src opts d = .ok ps → p ∈ ps →
        FromOCI p ∈ U) →
      ∃ fuel res, findRoots src opts node fuel = some res) := by
  refine ⟨?_, ?_, ?_⟩
  · intro src opts node fuel R F h
    exact findRootsLoop_fetched_nodup _ _ fuel _ _ _ _ R F (by simp)
      (by simp) h
  · intro pred depth fuel cur stack visited roots fetched hv
    exact findRootsLoop_visited pred depth fuel stack roots fetched hv
  · intro src opts node U hnode hU
    have hstack : ∀ e ∈ [({ node := node, depth := 0 } : NodeInfo)],
        FromOCI e.node ∈ U := by
      intro e he
      simp only [List.mem_singleton] at he
      subst he
      exact hnode
    obtain ⟨fuel, res, hres⟩ := findRootsLoop_terminates
      (effectiveFP src opts) opts.Depth U hU (unvisCard U []) [] le_rfl
      [{ node := node, depth := 0 }] hstack [] []
    exact ⟨fuel, res, hres⟩

theorem findRoots_fetch_once_terminates_witness :
    ([FromOCI dA, FromOCI dB] : List Key).Nodup ∧
    ∃ fuel res,
      findRoots srcCyc DefaultExtendedCopyGraphOptions dA fuel =
        some res := by
  refine ⟨findRoots_fetch_once_terminates.1 srcCyc
      DefaultExtendedCopyGraphOptions dA 10 [] [FromOCI dA, FromOCI dB] rfl,
    findRoots_fetch_once_terminates.2.2 srcCyc
      DefaultExtendedCopyGraphOptions dA {FromOCI dA, FromOCI dB}
      (by decide) ?_⟩
  intro d ps p h hp
  simp only [effectiveFP, DefaultExtendedCopyGraphOptions, Option.getD,
    defaultFindPredecessors, srcCyc, Except.ok.injEq] at h
  subst h
  simp only [cycPreds] at hp
  split at hp
  · simp only [List.mem_singleton] at hp
    subst hp
    decide
  · split at hp
    · simp only [List.mem_singleton] at hp
      subst hp
      decide
    · cases hp

/-- C5: for a descriptor whose media type is the docker or the OCI image
manifest, Successors returns the config descriptor first, followed by the
layers in manifest order. -/
theorem successors_image_manifest (src : GraphSource) (node : Descriptor)
    (m : ImageManifest)
    (hmt : node.MediaType = dockerMediaTypeManifest ∨
      node.MediaType = ocispecMediaTypeImageManifest)
    (hf : src.fetchImageManifest node = .ok m) :
    Successors src node = .ok (m.Config :: m.Layers) ∧
    (m.Config :: m.Layers).head? = some m.Config ∧
    (m.Config :: m.Layers).tail = m.Layers := by
  refine ⟨?_, rfl, rfl⟩
  unfold Successors
  rw [if_pos hmt, hf]

theorem successors_image_manifest_witness :
    Successors srcImg nodeImg = .ok [cfgD, layer1D, layer2D] := by
  have h := successors_image_manifest srcImg nodeImg mImg (Or.inr rfl) rfl
  exact h.1

/-- C6: for a descriptor whose media type is the legacy artifact manifest,
Successors returns the subject first when present, followed by the blobs in
manifest order, every returned descriptor being the legacy descriptor
normalized to the unified OCI shape by artifactToOCI. -/
theorem successors_legacy_artifact (src : GraphSource) (node : Descriptor)
    (m : ArtifactManifest)
    (hmt : node.MediaType = artifactspecMediaTypeArtifactManifest)
    (hf : src.fetchArtifactManifest node = .ok m) :
    Successors src node = .ok ((match m.Subject with
      | some s => [artifactToOCI s]
      | none => []) ++ m.Blobs.map artifactToOCI) ∧
    (∀ s, m.Subject = some s →
      ((match m.Subject with
        | some s => [artifactToOCI s]
        | none => []) ++ m.Blobs.map artifactToOCI).head? =
        some (artifactToOCI s)) ∧
    (∀ q ∈ (match m.Subject with
        | some s => [artifactToOCI s]
        | none => []) ++ m.Blobs.map artifactToOCI,
      (∃ s, m.Subject = some s ∧ q = artifactToOCI s) ∨
      (∃ b ∈ m.Blobs, q = artifactToOCI b)) := by
  refine ⟨?_, ?_, ?_⟩
  · have h1 : ¬(node.MediaType = dockerMediaTypeManifest ∨
        node.MediaType = ocispecMediaTypeImageManifest) := by
      rw [hmt]; decide
    have h2 : ¬(node.MediaType = dockerMediaTypeManifestList ∨
        node.MediaType = ocispecMediaTypeImageIndex) := by
      rw [hmt]; decide
    unfold Successors
    rw [if_neg h1, if_neg h2, if_pos hmt, hf]
  · intro s hs
    simp [hs]
  · intro q hq
    rcases List.mem_append.mp hq with h1 | h1
    · cases hsub : m.Subject with
      | none => rw [hsub] at h1; cases h1
      | some s =>
        rw [hsub] at h1
        simp only [List.mem_singleton] at h1
        exact Or.inl ⟨s, rfl, h1⟩
    · obtain ⟨b, hb, rfl⟩ := List.mem_map.mp h1
      exact Or.inr ⟨b, hb, rfl⟩

theorem successors_legacy_artifact_witness :
    Successors srcLegacy nodeLegacy =
      .ok [artifactToOCI adS, artifactToOCI ad1, artifactToOCI ad2] := by
  have h := successors_legacy_artifact srcLegacy nodeLegacy amLegacy rfl rfl
  exact h.1

/-- C7: FilterArtifactType with a nil regex is a no-op; with a non-nil
regex, the installed predecessor function takes the Referrers fast path
exactly when no predecessor override existed at registration time and the
source implements ReferrerFinder; when no override existed and the source
does not, it filters src.Predecessors; when an override existed, it wraps
that override and its result does not depend on the referrers capability of
the source beyond what the override itself reads. -/
theorem filterArtifactType_paths (opts : ExtendedCopyGraphOptions)
    (rx : String → Bool) :
    (FilterArtifactType opts none = opts) ∧
    (opts.FindPredecessors = none →
      ∃ g, (FilterArtifactType opts (some rx)).FindPredecessors = some g ∧
        (∀ (src : GraphSource) (desc : Descriptor) rf,
          src.referrers = some rf →
          g src desc = findReferrersAndFilter rf desc rx) ∧
        (∀ (src : GraphSource) (desc : Descriptor), src.referrers = none →
          g src desc = (src.predecessors desc).bind
            (filterByArtifactType src rx))) ∧
    (∀ f, opts.FindPredecessors = some f →
      ∃ g, (FilterArtifactType opts (some rx)).FindPredecessors = some g ∧
        (∀ (src : GraphSource) (desc : Descriptor), g src desc =
          (f src desc).bind (filterByArtifactType src rx)) ∧
        (∀ (src : GraphSource) (desc : Descriptor) r₁ r₂,
          f { src with referrers := r₁ } desc =
            f { src with referrers := r₂ } desc →
          g { src with referrers := r₁ } desc =
            g { src with referrers := r₂ } desc)) := by
  refine ⟨rfl, ?_, ?_⟩
  · intro hfp
    refine ⟨_, rfl, ?_, ?_⟩
    · intro src desc rf hrf
      simp only [hfp, hrf]
    · intro src desc hrf
      simp only [hfp, hrf]
      cases hps : src.predecessors desc <;> simp [Except.bind, hps]
  · intro f hfp
    refine ⟨_, rfl, ?_, ?_⟩
    · intro src desc
      simp only [hfp]
      cases hps : f src desc <;> simp [Except.bind, hps]
    · intro src desc r₁ r₂ hf
      simp only [hfp]
      rw [hf]
      cases h2 : f { src with referrers := r₂ } desc with
      | error e => rfl
      | ok ps =>
        show filterByArtifactType { src with referrers := r₁ } rx ps =
          filterByArtifactType { src with referrers := r₂ } rx ps
        exact filterByArtifactType_congr { src with referrers := r₁ }
          { src with referrers := r₂ } rx rfl ps

theorem filterArtifactType_paths_witness :
    ((FilterArtifactType DefaultExtendedCopyGraphOptions
        (some rxX)).FindPredecessors.getD defaultFindPredecessors)
      srcFast dA = .ok [ref1, ref3] := by
  obtain ⟨g, hg, hfast, _⟩ :=
    (filterArtifactType_paths DefaultExtendedCopyGraphOptions rxX).2.1 rfl
  rw [hg, Option.getD_some, hfast srcFast dA rfEx rfl]
  rfl

/-- C8: on a successful run, the wrapping path of FilterArtifactType keeps
exactly the predecessors satisfying the keep test; every kept predecessor
has the legacy artifact manifest media type (all other media types are
dropped, not passed through), and a legacy-artifact predecessor with a
successfully fetched manifest is kept iff the regex matches the manifest's
artifact type. -/
theorem filterArtifactType_drop_spec (src : GraphSource)
    (rx : String → Bool) (ps out : List Descriptor)
    (h : filterByArtifactType src rx ps = .ok out) :
    out = ps.filter (keepArtifact src rx) ∧
    (∀ q ∈ out, q.MediaType = artifactspecMediaTypeArtifactManifest) ∧
    (∀ q ∈ ps, q.MediaType = artifactspecMediaTypeArtifactManifest →
      ∀ m, src.fetchArtifactManifest q = .ok m →
        (q ∈ out ↔ rx m.ArtifactType = true)) := by
  have hout := filterByArtifactType_eq_filter src rx ps out h
  subst hout
  refine ⟨rfl, ?_, ?_⟩
  · intro q hq
    have hk := (List.mem_filter.mp hq).2
    simp only [keepArtifact, Bool.and_eq_true, decide_eq_true_eq] at hk
    exact hk.1
  · intro q hq hmt m hm
    rw [List.mem_filter]
    constructor
    · intro hmem
      have hk := hmem.2
      simp only [keepArtifact, Bool.and_eq_true, decide_eq_true_eq, hm]
        at hk
      exact hk.2
    · intro hrx
      refine ⟨hq, ?_⟩
      simp [keepArtifact, hmt, hm, hrx]

theorem filterArtifactType_drop_spec_witness :
    [pL1] = [pL1, pOther, pL2].filter (keepArtifact srcArt rxX) :=
  (filterArtifactType_drop_spec srcArt rxX [pL1, pOther, pL2] [pL1] rfl).1

/-- C9, counterexample: a PackArtifact call whose manifest annotations bind
the reserved created key to a value that is not RFC 3339 but whose artifact
type is empty fails with MissingArtifactType, not InvalidDateTimeFormat:
the artifact-type check precedes the timestamp check. -/
theorem packArtifact_precedence_cex :
    rfc3339Like "2000/01/01 00:00:00" = false ∧
    annotLookup (some [(ocispecAnnotationArtifactCreated,
        "2000/01/01 00:00:00")]) ocispecAnnotationArtifactCreated =
      some "2000/01/01 00:00:00" ∧
    (packArtifact rfc3339Like "2022-01-01T00:00:00Z" "" [] none
      (some [(ocispecAnnotationArtifactCreated,
        "2000/01/01 00:00:00")])).1 = .error .missingArtifactType ∧
    (Except.error PackError.missingArtifactType ≠
      (.error .invalidDateTimeFormat :
        Except PackError ArtifactManifestBuild)) := by
  refine ⟨rfl, rfl, rfl, ?_⟩
  intro hcontra
  injection hcontra with hcontra
  cases hcontra

/-- C9, amended: a PackArtifact call with a non-empty artifact type whose
manifest annotations bind the reserved created key to a value that does not
parse as RFC 3339 fails with InvalidDateTimeFormat and pushes nothing. -/
theorem packArtifact_invalid_created (rfc3339Valid : String → Bool)
    (now artifactType : String) (blobs : List Descriptor)
    (subject : Option Descriptor)
    (manifestAnnotations : Option (List (String × String))) (v : String)
    (hat : ¬artifactType = "")
    (hv : annotLookup manifestAnnotations
      ocispecAnnotationArtifactCreated = some v)
    (hbad : rfc3339Valid v = false) :
    packArtifact rfc3339Valid now artifactType blobs subject
      manifestAnnotations = (.error .invalidDateTimeFormat, []) := by
  unfold packArtifact
  rw [if_neg hat]
  simp [hv, hbad]

theorem packArtifact_invalid_created_witness :
    packArtifact rfc3339Like "2022-01-01T00:00:00Z" "application/vnd.test"
      [] none (some [(ocispecAnnotationArtifactCreated,
        "2000/01/01 00:00:00")]) = (.error .invalidDateTimeFormat, []) :=
  packArtifact_invalid_created rfc3339Like "2022-01-01T00:00:00Z"
    "application/vnd.test" [] none
    (some [(ocispecAnnotationArtifactCreated, "2000/01/01 00:00:00")])
    "2000/01/01 00:00:00" (by decide) rfl rfl

/-- C10: an ExtendedCopy call with non-nil source and destination and an
empty destination reference, whose resolve and graph copy succeed, issues
exactly one Tag call, tagging the node resolved from the source reference
under the source reference, and returns that node's descriptor when the
Tag call succeeds. -/
theorem extendedCopy_empty_dstRef (resolve : String → Except Err Descriptor)
    (copyGraph : Descriptor → Except Err Unit)
    (tag : Descriptor → String → Except Err Unit)
    (srcRef : String) (node : Descriptor)
    (hres : resolve srcRef = .ok node)
    (hcopy : copyGraph node = .ok ()) :
    (extendedCopy resolve copyGraph tag false false srcRef "").2 =
      [(node, srcRef)] ∧
    (tag node srcRef = .ok () →
      (extendedCopy resolve copyGraph tag false false srcRef "").1 =
        .ok node) := by
  constructor
  · unfold extendedCopy
    simp only [if_neg (Bool.false_ne_true), if_pos rfl, hres, hcopy]
    cases htag : tag node srcRef <;> simp [htag]
  · intro htag
    unfold extendedCopy
    simp [hres, hcopy, htag]

theorem extendedCopy_empty_dstRef_witness :
    (extendedCopy resolveEx copyGraphEx tagEx false false "latest" "").2 =
      [(dA, "latest")] ∧
    (extendedCopy resolveEx copyGraphEx tagEx false false "latest" "").1 =
      .ok dA := by
  have h := extendedCopy_empty_dstRef resolveEx copyGraphEx tagEx
    "latest" dA rfl rfl
  exact ⟨h.1, h.2 rfl⟩

end Claims

end Oras
